import Mathlib

/-!
# Verification of the HEIC batch-conversion orchestrator

Shallow embedding of the batch conversion logic of the
`image-file-converter` repository: staging (`handleFiles`), the
sequential conversion loop (`convertImages`), the per-file
multi-strategy decode (`convertSingleFile`), the bounded log buffer
(`addLog`) and the zip packaging (`downloadZip`).

Browser collaborators (the `heic2any` / `heic-decode` decoders and the
canvas encoder) are modelled as oracles: a per-file function from the
requested target format to an optional result blob.  JavaScript numbers
are modelled as exact rationals over `Nat` (`Math.round` of a
non-negative quotient `a / b` is `(2*a + b) / (2*b)` in `Nat` division).
-/

namespace ImageConverter

/-- An input file as staged by the UI: its name and (abstract) content. -/
structure InputFile where
  name : String
  content : List Nat
deriving DecidableEq, Repr

/-- A binary blob produced by a decoder, with its MIME type. -/
structure Blob where
  mime : String
  bytes : List Nat
deriving DecidableEq, Repr

/-- A successfully converted file (the `ConvertedFile` interface of the
source): output name and output blob.  The `id` and object-URL fields of
the source are presentation-only and carry no conversion data. -/
structure ConvertedFile where
  name : String
  blob : Blob
deriving DecidableEq, Repr

/-- Severity tag of a log entry (the `LogEntry.type` union of the source). -/
inductive LogKind where
  | info | success | error | process
deriving DecidableEq, Repr

/-- A log entry: message and severity.  The random `id` and wall-clock
`timestamp` of the source are nondeterministic presentation data and are
not modelled. -/
structure LogEntry where
  message : String
  kind : LogKind
deriving DecidableEq, Repr

/-- JavaScript `l.slice(-k)` on arrays: the last `k` elements
(all of them when `l` has fewer than `k`). -/
def sliceLast (k : Nat) (l : List LogEntry) : List LogEntry :=
  l.drop (l.length - k)

/-- The `addLog` of the source: `setLogs(prev => [...prev.slice(-k), newLog])`.
The main variant uses `k = 99` (buffer bound 100); one variant uses
`k = 49` (buffer bound 50). -/
def addLog (k : Nat) (logs : List LogEntry) (e : LogEntry) : List LogEntry :=
  sliceLast k logs ++ [e]

/-- A character allowed inside the extension matched by the rename regex
`/\.[^/.]+$/`: anything except `.` and `/`. -/
def isExtChar (c : Char) : Bool :=
  c ≠ '.' && c ≠ '/'

/-- The rename `name.replace(/\.[^/.]+$/, "")` on the character list of a name:
when the name ends in a dot followed by a nonempty run of characters
other than `.` and `/`, that dot and run are removed; otherwise the name
is unchanged. -/
def stripLastExt (cs : List Char) : List Char :=
  let r := cs.reverse
  match r.dropWhile isExtChar with
  | c :: rest => if c = '.' && !(r.takeWhile isExtChar).isEmpty then rest.reverse else cs
  | [] => cs

/-- Output naming of every variant:
`file.name.replace(/\.[^/.]+$/, "") + ".jpg"`. -/
def replaceExtJpg (name : String) : String :=
  String.mk (stripLastExt name.data ++ ".jpg".data)

/-- Case-insensitive accepted-extension test of `handleFiles`:
`name.toLowerCase().endsWith(".heic")`, with `.heif` also accepted when
`acceptHeif` is true (the `page.tsx` variant); the narrowed variants
accept `.heic` only. -/
def validName (acceptHeif : Bool) (name : String) : Bool :=
  let n := name.data.map Char.toLower
  ".heic".data.isSuffixOf n || (acceptHeif && ".heif".data.isSuffixOf n)

/-- The staged batch computed by `handleFiles`: candidates filtered by
accepted extension, truncated to the first 100 (`.slice(0, 100)`). -/
def stagedFiles (acceptHeif : Bool) (selected : List InputFile) : List InputFile :=
  (selected.filter fun f => validName acceptHeif f.name).take 100

/-- The UI state touched by staging and conversion. -/
structure UIState where
  files : List InputFile
  results : List ConvertedFile
  progress : Nat
  logs : List LogEntry
deriving DecidableEq, Repr

/-- The error entry logged by `handleFiles` when no candidate matches. -/
def noValidLog : LogEntry :=
  ⟨"No valid HEIC/HEIF detected", LogKind.error⟩

/-- The info entry logged by `handleFiles` on successful staging. -/
def stagedLog (n : Nat) : LogEntry :=
  ⟨"System: " ++ toString n ++ " files staged for conversion.", LogKind.info⟩

/-- The `handleFiles` of the source: filter to accepted extensions, cap at
100; with zero matches log an error and leave the batch state untouched;
otherwise store the staged files and reset results and progress. -/
def handleFiles (acceptHeif : Bool) (s : UIState) (selected : List InputFile) : UIState :=
  let validFiles := stagedFiles acceptHeif selected
  if validFiles.isEmpty then
    { s with logs := addLog 99 s.logs noValidLog }
  else
    { files := validFiles, results := [], progress := 0,
      logs := addLog 99 s.logs (stagedLog validFiles.length) }

/-- Target format requested from the `heic2any` decoder. -/
inductive Target where
  | jpeg | png
deriving DecidableEq, Repr

/-- The `convertSingleFile` of the multi-strategy variant (`page.tsx`): first
attempt a JPEG-target decode; on failure retry once targeting PNG; throw
when both fail.  The decode collaborator is the oracle `decode` (its
`Array.isArray ? converted[0] : converted` result shaping is folded into
the oracle, which returns the selected blob).  Returns the outcome
together with the list of decode attempts made, in order. -/
def convertSingleFile (decode : Target → Option Blob) (fname : String) :
    Option ConvertedFile × List Target :=
  match decode Target.jpeg with
  | some b => (some ⟨replaceExtJpg fname, b⟩, [Target.jpeg])
  | none =>
    match decode Target.png with
    | some b => (some ⟨replaceExtJpg fname, b⟩, [Target.jpeg, Target.png])
    | none => (none, [Target.jpeg, Target.png])

/-- Per-file conversion outcome, the spec's `ConversionOutcome`: in the
source a success appends the converted file to `results` and a failure
is recorded as an error log naming the input, after which the loop
continues. -/
inductive Outcome where
  | success : ConvertedFile → Outcome
  | failure : String → Outcome
deriving DecidableEq, Repr

/-- The outcome the loop body records for one file, given the per-file
conversion oracle `conv` (the `try { convertSingleFile … } catch` block). -/
def specOutcome (conv : InputFile → Option ConvertedFile) (f : InputFile) : Outcome :=
  match conv f with
  | some r => Outcome.success r
  | none => Outcome.failure f.name

/-- JavaScript `Math.round(num / den)` for non-negative operands, on exact
rationals: round half up. -/
def mathRound (num den : Nat) : Nat :=
  (2 * num + den) / (2 * den)

/-- The progress written after the file of index `i` (0-based) out of
`total` is recorded: `Math.round(((i + 1) / total) * 100)`. -/
def progressAfter (total i : Nat) : Nat :=
  mathRound ((i + 1) * 100) total

/-- State accumulated by the `convertImages` loop: the results list, the
last written progress value, the trace of emitted progress values, and
the recorded per-file outcomes. -/
structure RunState where
  results : List ConvertedFile
  progress : Nat
  trace : List Nat
  outcomes : List Outcome
deriving DecidableEq, Repr

/-- One iteration of the `convertImages` loop over the file of index `i`:
try the per-file conversion; on success append to `results`, on failure
record the failure; in both cases write the updated progress. -/
def stepFile (conv : InputFile → Option ConvertedFile) (total : Nat)
    (s : RunState) (i : Nat) (f : InputFile) : RunState :=
  let prog := progressAfter total i
  match conv f with
  | some res =>
    ⟨s.results ++ [res], prog, s.trace ++ [prog], s.outcomes ++ [Outcome.success res]⟩
  | none =>
    ⟨s.results, prog, s.trace ++ [prog], s.outcomes ++ [Outcome.failure f.name]⟩

/-- The `for (let i = 0; i < files.length; i++)` loop of `convertImages`,
processing the remaining files `fs` starting at index `i`. -/
def runFiles (conv : InputFile → Option ConvertedFile) (total : Nat) :
    Nat → List InputFile → RunState → RunState
  | _, [], s => s
  | i, f :: fs, s => runFiles conv total (i + 1) fs (stepFile conv total s i f)

/-- The state before the loop starts: `setResults([]); setProgress(0)`. -/
def initRun : RunState := ⟨[], 0, [], []⟩

/-- The `convertImages` of the source over a staged batch: reset results and
progress, then run the sequential loop over every staged file. -/
def runBatch (conv : InputFile → Option ConvertedFile) (files : List InputFile) : RunState :=
  runFiles conv files.length 0 files initRun

/-- The run state after the first `j` loop iterations of a batch over
`files` (the whole run when `j ≥ files.length`). -/
def runPrefixState (conv : InputFile → Option ConvertedFile) (files : List InputFile)
    (j : Nat) : RunState :=
  runFiles conv files.length 0 (files.take j) initRun

/-- Batch status tag of the spec's `BatchState`.  In the source the loop
guard `i < files.length` keeps the run in progress while fewer files
than staged have completed, and the run terminates (reaching the
`finally` block) exactly when the guard fails. -/
inductive Status where
  | idle | running | finished
deriving DecidableEq, Repr

/-- Status of a run with `completed` recorded outcomes out of `total`
staged files, read off the loop guard `i < files.length`. -/
def statusAfter (completed total : Nat) : Status :=
  if completed < total then Status.running else Status.finished

/-- The `zip.file(name, blob)` of JSZip, as called by `downloadZip`: the zip
member store is keyed by name — adding a name already present replaces
that member's content in place, otherwise the member is appended. -/
def zipFile (entries : List (String × Blob)) (name : String) (blob : Blob) :
    List (String × Blob) :=
  if entries.any (fun e => e.1 == name) then
    entries.map fun e => if e.1 == name then (name, blob) else e
  else
    entries ++ [(name, blob)]

/-- The zip members built by `downloadZip`:
`results.forEach(res => zip.file(res.name, res.blob))`. -/
def zipMembers (results : List ConvertedFile) : List (String × Blob) :=
  results.foldl (fun z r => zipFile z r.name r.blob) []

/-! ## Helper lemmas -/

theorem takeWhile_all_append {p : Char → Bool} :
    ∀ (l1 : List Char) (c : Char) (l2 : List Char),
      (∀ x ∈ l1, p x = true) → p c = false →
      (l1 ++ c :: l2).takeWhile p = l1 := by
  intro l1
  induction l1 with
  | nil => intro c l2 _ hc; simp [List.takeWhile_cons, hc]
  | cons a l ih =>
    intro c l2 hall hc
    have ha : p a = true := hall a (by simp)
    simp only [List.cons_append, List.takeWhile_cons, ha, if_true]
    rw [ih c l2 (fun x hx => hall x (by simp [hx])) hc]

theorem dropWhile_all_append {p : Char → Bool} :
    ∀ (l1 : List Char) (c : Char) (l2 : List Char),
      (∀ x ∈ l1, p x = true) → p c = false →
      (l1 ++ c :: l2).dropWhile p = c :: l2 := by
  intro l1
  induction l1 with
  | nil => intro c l2 _ hc; simp [List.dropWhile_cons, hc]
  | cons a l ih =>
    intro c l2 hall hc
    have ha : p a = true := hall a (by simp)
    simp only [List.cons_append, List.dropWhile_cons, ha, if_true]
    exact ih c l2 (fun x hx => hall x (by simp [hx])) hc

/-- The rename regex removes exactly the final dot stem when the name is
`base ++ "." ++ ext` with `ext` a nonempty run of extension characters. -/
theorem stripLastExt_ext (b e : List Char) (he : e ≠ [])
    (hall : ∀ c ∈ e, isExtChar c = true) :
    stripLastExt (b ++ '.' :: e) = b := by
  have hrev : (b ++ '.' :: e).reverse = e.reverse ++ '.' :: b.reverse := by
    simp
  have hallrev : ∀ x ∈ e.reverse, isExtChar x = true := by
    intro x hx; exact hall x (List.mem_reverse.mp hx)
  have hdot : isExtChar '.' = false := by decide
  have hdrop : (b ++ '.' :: e).reverse.dropWhile isExtChar = '.' :: b.reverse := by
    rw [hrev]; exact dropWhile_all_append e.reverse '.' b.reverse hallrev hdot
  have htake : (b ++ '.' :: e).reverse.takeWhile isExtChar = e.reverse := by
    rw [hrev]; exact takeWhile_all_append e.reverse '.' b.reverse hallrev hdot
  have hne : e.reverse.isEmpty = false := by
    cases hE : e.reverse with
    | nil => exact absurd (by simpa using hE) he
    | cons x xs => rfl
  simp only [stripLastExt, hdrop, htake, hne]
  simp

/-- The rename regex leaves a dot-free name unchanged. -/
theorem stripLastExt_no_dot (cs : List Char) (h : '.' ∉ cs) :
    stripLastExt cs = cs := by
  cases hd : cs.reverse.dropWhile isExtChar with
  | nil => simp only [stripLastExt, hd]
  | cons c rest =>
    have hmem : c ∈ cs := by
      have : c ∈ cs.reverse.dropWhile isExtChar := by rw [hd]; simp
      exact List.mem_reverse.mp ((List.dropWhile_sublist isExtChar).mem this)
    have hc : c ≠ '.' := fun hEq => h (hEq ▸ hmem)
    simp only [stripLastExt, hd, hc]
    simp

/-- C10. For every input name of the form `base.ext` (nonempty final
extension free of `.` and `/`), the output name is `base` with `".jpg"`
appended; a name with no dot gets `".jpg"` appended whole; hence two
names sharing `base` but differing in extension collide on the same
output name. -/
theorem output_name_spec :
    (∀ (name : String) (b e : List Char), name.data = b ++ '.' :: e → e ≠ [] →
        (∀ c ∈ e, isExtChar c = true) →
        replaceExtJpg name = String.mk (b ++ ".jpg".data))
    ∧ (∀ name : String, '.' ∉ name.data →
        replaceExtJpg name = String.mk (name.data ++ ".jpg".data))
    ∧ (∀ (n1 n2 : String) (b e1 e2 : List Char),
        n1.data = b ++ '.' :: e1 → n2.data = b ++ '.' :: e2 →
        e1 ≠ [] → e2 ≠ [] →
        (∀ c ∈ e1, isExtChar c = true) → (∀ c ∈ e2, isExtChar c = true) →
        replaceExtJpg n1 = replaceExtJpg n2) := by
  refine ⟨?ext, ?nodot, ?collide⟩
  case ext =>
    intro name b e hdata he hall
    simp only [replaceExtJpg, hdata, stripLastExt_ext b e he hall]
  case nodot =>
    intro name h
    simp only [replaceExtJpg, stripLastExt_no_dot name.data h]
  case collide =>
    intro n1 n2 b e1 e2 h1 h2 he1 he2 hall1 hall2
    simp only [replaceExtJpg, h1, h2, stripLastExt_ext b e1 he1 hall1,
      stripLastExt_ext b e2 he2 hall2]

/-- Witness for C10 at the concrete name `photo.heic` (and the collision
`photo.heic` / `photo.HEIF`). -/
theorem output_name_spec_witness :
    replaceExtJpg "photo.heic" = "photo.jpg"
    ∧ replaceExtJpg "nodot" = "nodot.jpg"
    ∧ replaceExtJpg "photo.HEIF" = replaceExtJpg "photo.heic" :=
  ⟨(output_name_spec.1 "photo.heic" "photo".data "heic".data (by decide) (by decide)
      (by decide)).trans (by decide),
   (output_name_spec.2.1 "nodot" (by decide)).trans (by decide),
   output_name_spec.2.2 "photo.HEIF" "photo.heic" "photo".data "HEIF".data "heic".data
      (by decide) (by decide) (by decide) (by decide) (by decide) (by decide)⟩

/-- C4. Whenever at least one candidate matches, staging stores exactly
the first `min 100 m` matching candidates (`m` the number of matches):
the filtered list truncated at the 100-file cap; every staged file has
an accepted extension and the staged list is a sublist of the
candidates. -/
theorem handleFiles_filter_and_cap (acceptHeif : Bool) (s : UIState)
    (selected : List InputFile)
    (h : 0 < (selected.filter fun f => validName acceptHeif f.name).length) :
    (handleFiles acceptHeif s selected).files
        = (selected.filter fun f => validName acceptHeif f.name).take 100
    ∧ (handleFiles acceptHeif s selected).files.length
        = min 100 (selected.filter fun f => validName acceptHeif f.name).length
    ∧ (∀ f ∈ (handleFiles acceptHeif s selected).files, validName acceptHeif f.name = true)
    ∧ (handleFiles acceptHeif s selected).files.Sublist selected := by
  have hne : (stagedFiles acceptHeif selected).isEmpty = false := by
    rw [List.isEmpty_eq_false_iff_exists_mem]
    have : 0 < (stagedFiles acceptHeif selected).length := by
      simp only [stagedFiles, List.length_take]
      omega
    exact List.exists_mem_of_length_pos this
  have hfiles : (handleFiles acceptHeif s selected).files = stagedFiles acceptHeif selected := by
    simp only [handleFiles, hne]
    simp
  refine ⟨hfiles, ?_, ?_, ?_⟩
  · rw [hfiles]; simp [stagedFiles]
  · intro f hf
    rw [hfiles] at hf
    have : f ∈ selected.filter fun f => validName acceptHeif f.name :=
      (List.take_sublist 100 _).mem hf
    exact (List.mem_filter.mp this).2
  · rw [hfiles]
    exact (List.take_sublist 100 _).trans (List.filter_sublist selected)

set_option maxRecDepth 8000 in
/-- Witness for C4: staging 150 candidates, 120 of which match, yields a
staged batch of exactly 100. -/
theorem handleFiles_filter_and_cap_witness :
    (handleFiles true ⟨[], [], 0, []⟩
        (List.replicate 120 (⟨"a.heic", []⟩ : InputFile)
          ++ List.replicate 30 ⟨"b.txt", []⟩)).files.length = 100 :=
  (handleFiles_filter_and_cap true ⟨[], [], 0, []⟩ _ (by decide)).2.1.trans (by decide)

/-- C5. When zero candidates match the accepted extensions, staging
leaves the staged file list, the results list and the progress value
unchanged, and surfaces an error log entry. -/
theorem handleFiles_empty_batch (acceptHeif : Bool) (s : UIState)
    (selected : List InputFile)
    (h : (selected.filter fun f => validName acceptHeif f.name) = []) :
    (handleFiles acceptHeif s selected).files = s.files
    ∧ (handleFiles acceptHeif s selected).results = s.results
    ∧ (handleFiles acceptHeif s selected).progress = s.progress
    ∧ (handleFiles acceptHeif s selected).logs = addLog 99 s.logs noValidLog
    ∧ noValidLog.kind = LogKind.error := by
  have hne : (stagedFiles acceptHeif selected).isEmpty = true := by
    simp [stagedFiles, h]
  simp only [handleFiles, hne]
  exact ⟨rfl, rfl, rfl, rfl, rfl⟩

/-- Witness for C5 at a concrete candidate list with no matching name. -/
theorem handleFiles_empty_batch_witness :
    (handleFiles true ⟨[⟨"old.heic", []⟩], [⟨"old.jpg", ⟨"image/jpeg", []⟩⟩], 42, []⟩
        [⟨"b.txt", []⟩]).files = [⟨"old.heic", []⟩] :=
  (handleFiles_empty_batch true ⟨[⟨"old.heic", []⟩], [⟨"old.jpg", ⟨"image/jpeg", []⟩⟩], 42, []⟩
      [⟨"b.txt", []⟩] (by decide)).1

theorem sliceLast_of_le {k : Nat} {l : List LogEntry} (h : l.length ≤ k) :
    sliceLast k l = l := by
  simp [sliceLast, Nat.sub_eq_zero_of_le h]

theorem sliceLast_sliceLast (k : Nat) (l : List LogEntry) :
    sliceLast k (sliceLast (k + 1) l) = sliceLast k l := by
  simp only [sliceLast, List.length_drop, List.drop_drop]
  congr 1
  omega

theorem sliceLast_concat (k : Nat) (l : List LogEntry) (e : LogEntry) :
    sliceLast (k + 1) (l ++ [e]) = sliceLast k l ++ [e] := by
  simp only [sliceLast, List.length_append, List.length_cons, List.length_nil]
  rw [List.drop_append_of_le_length (by omega)]
  congr 2
  omega

/-- Folding `addLog` from an empty buffer keeps exactly the most recent
`k + 1` entries of the appended sequence. -/
theorem foldl_addLog (k : Nat) (es : List LogEntry) :
    es.foldl (addLog k) [] = sliceLast (k + 1) es := by
  induction es using List.reverseRecOn with
  | nil => simp [sliceLast]
  | append_singleton es e ih =>
    rw [List.foldl_append, ih]
    show addLog k (sliceLast (k + 1) es) e = _
    rw [addLog, sliceLast_sliceLast, sliceLast_concat]

/-- C8. The log buffer is append-only and bounded: starting from an
empty buffer, a sequence of `addLog` appends leaves exactly the most
recent `k + 1` entries in order (`k = 99` in the 100-entry variants,
`k = 49` in the 50-entry variant); below the bound an append only
appends, and once the bound is reached each append drops exactly the
oldest entry, keeping the remaining entries in order. -/
theorem addLog_ring_buffer (k : Nat) :
    (∀ es : List LogEntry, es.foldl (addLog k) [] = sliceLast (k + 1) es)
    ∧ (∀ es : List LogEntry, (es.foldl (addLog k) []).length ≤ k + 1)
    ∧ (∀ (logs : List LogEntry) (e : LogEntry), logs.length ≤ k →
        addLog k logs e = logs ++ [e])
    ∧ (∀ (logs : List LogEntry) (e : LogEntry), logs.length = k + 1 →
        addLog k logs e = logs.tail ++ [e]) := by
  refine ⟨foldl_addLog k, ?_, ?_, ?_⟩
  · intro es
    rw [foldl_addLog k es]
    simp only [sliceLast, List.length_drop]
    omega
  · intro logs e h
    rw [addLog, sliceLast_of_le h]
  · intro logs e h
    rw [addLog, sliceLast, h, ← List.drop_one]
    congr 2
    omega

/-- Witness for C8 at `k = 99` (100-entry bound): appending to a full
buffer of 100 entries drops exactly the oldest. -/
theorem addLog_ring_buffer_witness :
    addLog 99 (List.replicate 100 (⟨"old", LogKind.info⟩ : LogEntry)) ⟨"new", LogKind.info⟩
      = (List.replicate 100 (⟨"old", LogKind.info⟩ : LogEntry)).tail
          ++ [⟨"new", LogKind.info⟩] :=
  (addLog_ring_buffer 99).2.2.2 (List.replicate 100 ⟨"old", LogKind.info⟩)
    ⟨"new", LogKind.info⟩ (by decide)

/-- The loop records one outcome per processed file, in input order,
each determined only by that file's conversion result. -/
theorem runFiles_outcomes (conv : InputFile → Option ConvertedFile) (total : Nat) :
    ∀ (fs : List InputFile) (i : Nat) (s : RunState),
      (runFiles conv total i fs s).outcomes = s.outcomes ++ fs.map (specOutcome conv) := by
  intro fs
  induction fs with
  | nil => intro i s; simp [runFiles]
  | cons f fs ih =>
    intro i s
    rw [runFiles, ih]
    cases h : conv f <;> simp [stepFile, h, specOutcome]

/-- The loop appends exactly the successful conversions to `results`. -/
theorem runFiles_results (conv : InputFile → Option ConvertedFile) (total : Nat) :
    ∀ (fs : List InputFile) (i : Nat) (s : RunState),
      (runFiles conv total i fs s).results = s.results ++ fs.filterMap conv := by
  intro fs
  induction fs with
  | nil => intro i s; simp [runFiles]
  | cons f fs ih =>
    intro i s
    rw [runFiles, ih]
    cases h : conv f <;> simp [stepFile, h]

/-- C1. A per-file failure never aborts the run: for every per-file
conversion behaviour the loop records exactly one outcome per staged
file, and in a batch of three files where only the second fails, the
first and third still yield `success` outcomes while the second yields a
`failure` outcome. -/
theorem failure_never_aborts (conv : InputFile → Option ConvertedFile) :
    (∀ files : List InputFile, (runBatch conv files).outcomes.length = files.length)
    ∧ (∀ (f₁ f₂ f₃ : InputFile) (r₁ r₃ : ConvertedFile),
        conv f₁ = some r₁ → conv f₂ = none → conv f₃ = some r₃ →
        (runBatch conv [f₁, f₂, f₃]).outcomes
          = [Outcome.success r₁, Outcome.failure f₂.name, Outcome.success r₃]) := by
  constructor
  · intro files
    rw [runBatch, runFiles_outcomes]
    simp [initRun]
  · intro f₁ f₂ f₃ r₁ r₃ h₁ h₂ h₃
    rw [runBatch, runFiles_outcomes]
    simp [initRun, specOutcome, h₁, h₂, h₃]

/-- Witness for C1: a concrete 3-file batch whose second file is the
only one that fails to decode. -/
theorem failure_never_aborts_witness :
    (runBatch
        (fun f => if f.name = "b.heic" then none
          else some ⟨replaceExtJpg f.name, ⟨"image/jpeg", []⟩⟩)
        [⟨"a.heic", []⟩, ⟨"b.heic", []⟩, ⟨"c.heic", []⟩]).outcomes
      = [Outcome.success ⟨"a.jpg", ⟨"image/jpeg", []⟩⟩,
         Outcome.failure "b.heic",
         Outcome.success ⟨"c.jpg", ⟨"image/jpeg", []⟩⟩] := by
  have h := (failure_never_aborts
      (fun f => if f.name = "b.heic" then none
        else some ⟨replaceExtJpg f.name, ⟨"image/jpeg", []⟩⟩)).2
    ⟨"a.heic", []⟩ ⟨"b.heic", []⟩ ⟨"c.heic", []⟩
    ⟨"a.jpg", ⟨"image/jpeg", []⟩⟩ ⟨"c.jpg", ⟨"image/jpeg", []⟩⟩
    (by decide) (by decide) (by decide)
  exact h

/-- C2. When the run terminates the recorded outcomes are exactly one
per staged input file in input order (so the completed count equals the
batch size, with no duplicate and no missing outcome); throughout the
run the completed count never exceeds the batch size; and the status
read off the loop guard is `finished` exactly when the completed count
equals the batch size. -/
theorem run_completion_invariants (conv : InputFile → Option ConvertedFile)
    (files : List InputFile) :
    (runBatch conv files).outcomes = files.map (specOutcome conv)
    ∧ (runBatch conv files).outcomes.length = files.length
    ∧ (∀ j, (runPrefixState conv files j).outcomes.length ≤ files.length)
    ∧ (∀ j, j ≤ files.length →
        (statusAfter j files.length = Status.finished ↔ j = files.length))
    ∧ statusAfter (runBatch conv files).outcomes.length files.length = Status.finished := by
  have houtcomes : (runBatch conv files).outcomes = files.map (specOutcome conv) := by
    rw [runBatch, runFiles_outcomes]; simp [initRun]
  refine ⟨houtcomes, ?_, ?_, ?_, ?_⟩
  · rw [houtcomes, List.length_map]
  · intro j
    rw [runPrefixState, runFiles_outcomes]
    simp only [initRun, List.nil_append, List.length_map, List.length_take]
    omega
  · intro j hj
    rw [statusAfter]
    split <;> constructor <;> intro h <;> first | omega | simp_all
  · rw [houtcomes, List.length_map, statusAfter]
    simp

/-- Witness for C2 at a concrete 2-file batch with one failure. -/
theorem run_completion_invariants_witness :
    (statusAfter 2 2 = Status.finished ↔ (2 : Nat) = 2)
    ∧ (runBatch (fun _ => none) [⟨"a.heic", []⟩, ⟨"b.heic", []⟩]).outcomes.length = 2 :=
  ⟨(run_completion_invariants (fun _ => none)
      [⟨"a.heic", []⟩, ⟨"b.heic", []⟩]).2.2.2.1 2 (by decide),
   (run_completion_invariants (fun _ => none) [⟨"a.heic", []⟩, ⟨"b.heic", []⟩]).2.1⟩

/-- C6. The multi-strategy decode makes at most two attempts, the first
targeting JPEG; when the JPEG attempt succeeds the outcome is success
with that first attempt's result and no further attempt is made; when
the JPEG attempt fails it retries exactly once targeting PNG; the
outcome is a failure exactly when both attempts fail. -/
theorem multi_strategy_decode (decode : Target → Option Blob) (fname : String) :
    (convertSingleFile decode fname).2.length ≤ 2
    ∧ (convertSingleFile decode fname).2.head? = some Target.jpeg
    ∧ ((convertSingleFile decode fname).1 = none ↔
        decode Target.jpeg = none ∧ decode Target.png = none)
    ∧ (∀ b, decode Target.jpeg = some b →
        convertSingleFile decode fname = (some ⟨replaceExtJpg fname, b⟩, [Target.jpeg]))
    ∧ (decode Target.jpeg = none →
        (convertSingleFile decode fname).2 = [Target.jpeg, Target.png]) := by
  cases hj : decode Target.jpeg with
  | some b => simp [convertSingleFile, hj]
  | none =>
    cases hp : decode Target.png with
    | some b => simp [convertSingleFile, hj, hp]
    | none => simp [convertSingleFile, hj, hp]

/-- Witness for C6: a decoder that rejects JPEG and accepts PNG makes
exactly the two attempts `[jpeg, png]`. -/
theorem multi_strategy_decode_witness :
    (convertSingleFile
        (fun t => match t with
          | Target.jpeg => none
          | Target.png => some ⟨"image/png", [137, 80, 78, 71]⟩)
        "photo.heic").2 = [Target.jpeg, Target.png] :=
  (multi_strategy_decode
      (fun t => match t with
        | Target.jpeg => none
        | Target.png => some ⟨"image/png", [137, 80, 78, 71]⟩)
      "photo.heic").2.2.2.2 (by decide)

/-- C9. When the JPEG attempt fails and the PNG fallback succeeds, the
produced output carries the input name renamed to a `.jpg` extension
even though its blob is the PNG attempt's result (PNG-encoded bytes). -/
theorem png_fallback_mislabel (decode : Target → Option Blob) (fname : String) (b : Blob)
    (hj : decode Target.jpeg = none) (hp : decode Target.png = some b) :
    (convertSingleFile decode fname).1 = some ⟨replaceExtJpg fname, b⟩
    ∧ ".jpg".data <:+ (replaceExtJpg fname).data
    ∧ (b.mime = "image/png" →
        ((convertSingleFile decode fname).1.map fun c => c.blob.mime) = some "image/png") := by
  refine ⟨?_, ?_, ?_⟩
  · simp [convertSingleFile, hj, hp]
  · exact List.suffix_append (stripLastExt fname.data) ".jpg".data
  · intro hmime
    simp [convertSingleFile, hj, hp, hmime]

/-- Witness for C9: JPEG fails, PNG succeeds, and the output is named
`photo.jpg` while holding the PNG blob. -/
theorem png_fallback_mislabel_witness :
    (convertSingleFile
        (fun t => match t with
          | Target.jpeg => none
          | Target.png => some ⟨"image/png", [137, 80, 78, 71]⟩)
        "photo.heic").1
      = some ⟨"photo.jpg", ⟨"image/png", [137, 80, 78, 71]⟩⟩ := by
  have h := (png_fallback_mislabel
      (fun t => match t with
        | Target.jpeg => none
        | Target.png => some ⟨"image/png", [137, 80, 78, 71]⟩)
      "photo.heic" ⟨"image/png", [137, 80, 78, 71]⟩ (by decide) (by decide)).1
  rw [h]
  decide

/-- C7 counterexample: two successful outcomes sharing the output name
`x.jpg` (as produced from inputs `x.heic` and `x.heif`) yield an archive
with a single member, not two — the claimed member count `N` fails. -/
theorem zip_member_count_counterexample :
    (zipMembers [⟨"x.jpg", ⟨"image/jpeg", [1]⟩⟩, ⟨"x.jpg", ⟨"image/png", [2]⟩⟩]).length
      ≠ ([(⟨"x.jpg", ⟨"image/jpeg", [1]⟩⟩ : ConvertedFile),
          ⟨"x.jpg", ⟨"image/png", [2]⟩⟩] : List ConvertedFile).length := by
  decide

theorem foldl_zipFile_nodup :
    ∀ (results : List ConvertedFile) (acc : List (String × Blob)),
      (∀ r ∈ results, ∀ e ∈ acc, e.1 ≠ r.name) →
      (results.map ConvertedFile.name).Nodup →
      results.foldl (fun z r => zipFile z r.name r.blob) acc
        = acc ++ results.map (fun r => (r.name, r.blob)) := by
  intro results
  induction results with
  | nil => intro acc _ _; simp
  | cons r rs ih =>
    intro acc hdisj hnd
    have hany : (acc.any fun e => e.1 == r.name) = false := by
      rw [Bool.eq_false_iff]
      intro hc
      rw [List.any_eq_true] at hc
      obtain ⟨e, he, heq⟩ := hc
      exact hdisj r (by simp) e he (by simpa using heq)
    have hstep : zipFile acc r.name r.blob = acc ++ [(r.name, r.blob)] := by
      rw [zipFile, hany]
      simp
    rw [List.foldl_cons, hstep]
    rw [List.map_cons, List.nodup_cons] at hnd
    rw [ih (acc ++ [(r.name, r.blob)]) ?_ hnd.2]
    · simp
    · intro r' hr' e he
      rcases List.mem_append.mp he with hacc | hlast
      · exact hdisj r' (by simp [hr']) e hacc
      · have he' : e = (r.name, r.blob) := by simpa using hlast
        rw [he']
        intro hEq
        apply hnd.1
        have : r.name = r'.name := hEq
        rw [this]
        exact List.mem_map_of_mem ConvertedFile.name hr'

/-- C7 amended: over successful outcomes whose output names are
pairwise distinct, the archive's members are exactly one per outcome
under its output name, so the member count equals the outcome count and
the member names list the outcomes' names exactly once each. -/
theorem zip_members_distinct_names (results : List ConvertedFile)
    (h : (results.map ConvertedFile.name).Nodup) :
    zipMembers results = results.map (fun r => (r.name, r.blob))
    ∧ (zipMembers results).length = results.length
    ∧ (zipMembers results).map Prod.fst = results.map ConvertedFile.name := by
  have hmem : zipMembers results = results.map (fun r => (r.name, r.blob)) := by
    rw [zipMembers, foldl_zipFile_nodup results [] (by simp) h]
    simp
  refine ⟨hmem, ?_, ?_⟩
  · rw [hmem, List.length_map]
  · rw [hmem, List.map_map]
    rfl

/-- Witness for the amended C7 at two outcomes with distinct names. -/
theorem zip_members_distinct_names_witness :
    zipMembers [⟨"a.jpg", ⟨"image/jpeg", [1]⟩⟩, ⟨"b.jpg", ⟨"image/jpeg", [2]⟩⟩]
      = [("a.jpg", ⟨"image/jpeg", [1]⟩), ("b.jpg", ⟨"image/jpeg", [2]⟩)] :=
  (zip_members_distinct_names
      [⟨"a.jpg", ⟨"image/jpeg", [1]⟩⟩, ⟨"b.jpg", ⟨"image/jpeg", [2]⟩⟩]
      (by decide)).1.trans (by decide)

end ImageConverter
